import Mathlib

/-!
Verification of the calendar layout core of HA-Calendar.

This file gives a shallow embedding of the two layout procedures of the
repository and proves properties of them:

- the multi-day all-day lane packing in
  src/renderer/base_renderer.py, function _get_all_day_span_lanes
  (the "Lane Packer"), and
- the per-day vertical event placement loop in
  src/renderer/week_renderer.py, function _draw_events_in_cell, and its
  textually identical copy in
  src/renderer/four_day_renderer.py, function _draw_events_in_column
  (the "Day Event Placer").

Modelling conventions:

- Python datetimes are modelled at one-minute granularity by a pair of a
  calendar day number and a minute of day; the renderers only read
  dates, hours, minutes and second-resolution durations of minute-aligned
  events, so this is exact for minute-aligned inputs.
- Python float arithmetic in the placer is modelled by exact rational
  arithmetic: all the float expressions feeding int() in the source are
  exact ratios of integers, so int(num/den) is integer truncation toward
  zero (Int.tdiv) and Python floor division is Int.fdiv.
- A Python statement that can raise an exception (indexing dates[0] and
  dates.index on the row of days) is modelled by an Option result; none
  models the exception escaping the function.
- Text wrapping (wrap_text) depends on font metrics of the drawing
  backend; it is abstracted as a function from an event and a maximum
  line count to the number of wrapped lines, exactly the text-measuring
  capability the renderers pass around.
-/

/-- A Python datetime at minute granularity: calendar day number and minute
of day.  The renderers read start.date(), end.date(), start.hour,
start.minute and (end - start).total_seconds(). -/
structure PyDateTime where
  day : Int
  minuteOfDay : Int
deriving DecidableEq, Repr

/-- The fields of calendar_data.CalendarEvent that the two layout
procedures read.  The field named end in the source is called stop here
because end is a Lean keyword. -/
structure CalendarEvent where
  calendar_id : String
  title : String
  start : PyDateTime
  stop : PyDateTime
  all_day : Bool
deriving DecidableEq, Repr

/-- Identity key of an event, from BaseRenderer._event_key: the tuple
(calendar_id, title, start isoformat, end isoformat).  The isoformat
strings are injective images of the datetimes, so the datetimes stand in
for them. -/
abbrev EventKey := String × String × PyDateTime × PyDateTime

def event_key (e : CalendarEvent) : EventKey :=
  (e.calendar_id, e.title, e.start, e.stop)

/-! ### Lane Packer: _get_all_day_span_lanes (base_renderer.py lines 480-532) -/

/-- end_inclusive = event.end.date() - timedelta(days=1). -/
def end_inclusive (e : CalendarEvent) : Int := e.stop.day - 1

/-- The filter of the collection loop (lines 491-499): the event is
all-day, spans strictly more than one day, and its inclusive date range
intersects the row. -/
def qualifies (rowStart rowEnd : Int) (e : CalendarEvent) : Bool :=
  e.all_day
    && decide (e.start.day < end_inclusive e)
    && decide (rowStart ≤ end_inclusive e)
    && decide (e.start.day ≤ rowEnd)

/-- span_events[key] = event on a Python dict modelled as an association
list: replacing the value in place when the key is present (keeping its
position), appending otherwise. -/
def upsert (m : List (EventKey × CalendarEvent)) (k : EventKey) (v : CalendarEvent) :
    List (EventKey × CalendarEvent) :=
  if m.any (fun p => decide (p.1 = k)) then
    m.map (fun p => if p.1 = k then (k, v) else p)
  else m ++ [(k, v)]

/-- The collection loop of _get_all_day_span_lanes: scan every day of the
row, and for each qualifying all-day event store it in the dict keyed by
its identity key.  events_by_day.get(day) returning None skips the day. -/
def collect_span_events (rowStart rowEnd : Int) (dates : List Int)
    (evmap : Int → Option (List CalendarEvent)) : List (EventKey × CalendarEvent) :=
  dates.foldl (fun m day =>
    match evmap day with
    | none => m
    | some evs =>
      evs.foldl (fun m' e =>
        if qualifies rowStart rowEnd e then upsert m' (event_key e) e else m') m) []

/-- A span: (start_idx, end_idx, event) as built at line 511. -/
structure SpanT where
  startIdx : Nat
  endIdx : Nat
  ev : CalendarEvent
deriving DecidableEq, Repr

/-- Span construction (lines 505-511).  dates.index raises ValueError when
the clipped date is absent from the row, modelled by none. -/
def mk_span (dates : List Int) (rowStart rowEnd : Int) (e : CalendarEvent) : Option SpanT :=
  match dates.findIdx? (fun d => decide (d = max e.start.day rowStart)),
        dates.findIdx? (fun d => decide (d = min (end_inclusive e) rowEnd)) with
  | some i, some j => some ⟨i, j, e⟩
  | _, _ => none

/-- The span-building loop over the dict values, propagating a ValueError
from any dates.index call. -/
def spans_of (dates : List Int) (rowStart rowEnd : Int) :
    List (EventKey × CalendarEvent) → Option (List SpanT)
  | [] => some []
  | p :: rest =>
    match mk_span dates rowStart rowEnd p.2, spans_of dates rowStart rowEnd rest with
    | some s, some ss => some (s :: ss)
    | _, _ => none

/-- The sort key of line 513: (start index, width, title), lexicographic. -/
def span_le (a b : SpanT) : Bool :=
  decide (a.startIdx < b.startIdx)
    || (decide (a.startIdx = b.startIdx)
      && (decide (a.endIdx - a.startIdx < b.endIdx - b.startIdx)
        || (decide (a.endIdx - a.startIdx = b.endIdx - b.startIdx)
          && decide (a.ev.title ≤ b.ev.title))))

/-- Stable insertion of a span into an already sorted list: the new span
goes before the first element it compares less-or-equal to, hence after
all earlier-inserted ties. -/
def insert_sorted (s : SpanT) : List SpanT → List SpanT
  | [] => [s]
  | t :: ts => if span_le s t then s :: t :: ts else t :: insert_sorted s ts

/-- spans.sort(key=lambda s: (start, width, title)) of line 513.  CPython's
list.sort is stable, and a stable sort for the total preorder span_le is
unique, so it is modelled by stable insertion sort (structurally
recursive, hence usable in kernel evaluation). -/
def sort_spans (spans : List SpanT) : List SpanT := spans.foldr insert_sorted []

lemma insert_sorted_perm (s : SpanT) : ∀ l : List SpanT, (insert_sorted s l).Perm (s :: l) := by
  intro l
  induction l with
  | nil => exact List.Perm.refl _
  | cons t ts ih =>
    unfold insert_sorted
    by_cases h : span_le s t = true
    · rw [if_pos h]
    · rw [if_neg h]
      exact (List.Perm.cons t ih).trans (List.Perm.swap s t ts)

lemma sort_spans_perm (l : List SpanT) : (sort_spans l).Perm l := by
  induction l with
  | nil => exact List.Perm.refl _
  | cons s rest ih =>
    unfold sort_spans at ih ⊢
    rw [List.foldr_cons]
    exact (insert_sorted_perm s _).trans (ih.cons s)

/-- The acceptance test of line 521: the new span index-overlaps no span
already in the lane. -/
def lane_accepts (lane : List SpanT) (s : SpanT) : Bool :=
  lane.all (fun ex => decide (s.endIdx < ex.startIdx) || decide (s.startIdx > ex.endIdx))

/-- Scan lanes in creation order; append the span to the first accepting
lane (lines 519-524). -/
def try_place_in_lanes (s : SpanT) : List (List SpanT) → Option (List (List SpanT))
  | [] => none
  | l :: ls =>
    if lane_accepts l s then some ((l ++ [s]) :: ls)
    else
      match try_place_in_lanes s ls with
      | some ls' => some (l :: ls')
      | none => none

/-- One iteration of the greedy loop (lines 518-530): place in the first
accepting lane, else open a new lane when below max_lanes, else count the
span as overflow and drop it. -/
def greedy_step (maxLanes : Nat) (st : List (List SpanT) × Nat) (s : SpanT) :
    List (List SpanT) × Nat :=
  match try_place_in_lanes s st.1 with
  | some lanes' => (lanes', st.2)
  | none => if st.1.length < maxLanes then (st.1 ++ [[s]], st.2) else (st.1, st.2 + 1)

def greedy_assign (maxLanes : Nat) (spans : List SpanT) : List (List SpanT) × Nat :=
  spans.foldl (greedy_step maxLanes) ([], 0)

/-- _get_all_day_span_lanes.  dates[0] on an empty row raises IndexError,
modelled by none; so does a ValueError from dates.index. -/
def get_all_day_span_lanes (dates : List Int) (evmap : Int → Option (List CalendarEvent))
    (maxLanes : Nat) : Option (List (List SpanT) × Nat × List EventKey) :=
  match dates with
  | [] => none
  | d0 :: rest =>
    let rowStart := d0
    let rowEnd := (d0 :: rest).getLastD d0
    let dict := collect_span_events rowStart rowEnd (d0 :: rest) evmap
    match spans_of (d0 :: rest) rowStart rowEnd dict with
    | none => none
    | some spans =>
      let st := greedy_assign maxLanes (sort_spans spans)
      some (st.1, st.2, dict.map Prod.fst)

/-- The rows the callers build: week_start + timedelta(days=i) for i in
range(n) (week_renderer.py line 77, four_day_renderer.py line 48). -/
def row_dates (d0 : Int) (n : Nat) : List Int :=
  (List.range n).map (fun i : Nat => d0 + (i : Int))

/-! ### Day Event Placer: _draw_events_in_cell / _draw_events_in_column -/

/-- Python int(num/den) for an exact ratio: truncation toward zero. -/
def pyInt (num den : Int) : Int := num.tdiv den

/-- A placed block: the (event_y, bar_height) rectangle drawn for an
event, recorded in placement order (the occupied_slots list keeps
(top, top + height)). -/
structure Placed where
  top : Int
  height : Int
  ev : CalendarEvent
deriving DecidableEq, Repr

def slots_of (placed : List Placed) : List (Int × Int) :=
  placed.map (fun p => (p.top, p.top + p.height))

/-- One iteration of the overlap-nudge loop (lines 284-287 of
week_renderer.py): when the candidate rectangle intersects an occupied
slot, move it to two pixels below that slot. -/
def nudge_step (bh : Int) (cur : Int) (se : Int × Int) : Int :=
  if cur < se.2 ∧ cur + bh > se.1 then se.2 + 2 else cur

def nudge_fold (bh : Int) (slots : List (Int × Int)) (c : Int) : Int :=
  slots.foldl (nudge_step bh) c

/-- The tail of the placement loop (lines 282-298): nudge the candidate
top past overlapping slots, clamp the bar at the bottom of the region or
skip the event, and record the slot. -/
def push_block (minBar y height : Int) (placed : List Placed) (c bh : Int)
    (e : CalendarEvent) : List Placed :=
  let f := nudge_fold bh (slots_of placed) c
  if f + bh > y + height then
    let bh2 := max (y + height - f) minBar
    if f + bh2 > y + height then placed else placed ++ [⟨f, bh2, e⟩]
  else placed ++ [⟨f, bh, e⟩]

/-- all_day_max_height = min(height // 3, min_bar_height * 3). -/
def all_day_max_height (minBar height : Int) : Int :=
  min (Int.fdiv height 3) (minBar * 3)

/-- The time-based top of a timed event (lines 255-266): clamp the start
hour to [6, 22] and map linearly onto the region, truncating to a pixel.
(hour + minute/60 - 6) * (height/16) equals (clampedMinute - 360) *
height / 960 exactly. -/
def timed_top (y height : Int) (e : CalendarEvent) : Int :=
  let clamped := min (max e.start.minuteOfDay 360) 1320
  y + pyInt ((clamped - 360) * height) 960

/-- (end - start).total_seconds() / 60, at minute granularity. -/
def duration_minutes (e : CalendarEvent) : Int :=
  (e.stop.day - e.start.day) * 1440 + (e.stop.minuteOfDay - e.start.minuteOfDay)

/-- bar_height = max(int(duration_hours * pixels_per_hour),
min_bar_height) (line 270); duration_hours * pixels_per_hour equals
duration_minutes * height / 960 exactly. -/
def timed_bar_height (minBar height : Int) (e : CalendarEvent) : Int :=
  max (pyInt (duration_minutes e * height) 960) minBar

/-- max_text_lines = max(1, min(6, (bar_height - 4) // line_height)). -/
def max_text_lines (lh bar : Int) : Int :=
  max 1 (min 6 (Int.fdiv (bar - 4) lh))

/-- The all-day bar height (lines 249-253 and 277-280): start from
all_day_max_height, wrap the title, grow to fit the wrapped lines but
never below min_bar_height, then cap at all_day_max_height again. -/
def all_day_bar_height (wrap : CalendarEvent → Int → Nat) (lh minBar height : Int)
    (e : CalendarEvent) : Int :=
  let admax := all_day_max_height minBar height
  let lines : Int := (wrap e (max_text_lines lh admax) : Int)
  let bar1 := max minBar (lines * lh + 4)
  if bar1 > admax then admax else bar1

/-- One iteration of the event loop of _draw_events_in_cell /
_draw_events_in_column for one event. -/
def place_one (wrap : CalendarEvent → Int → Nat) (lh minBar y height : Int)
    (placed : List Placed) (e : CalendarEvent) : List Placed :=
  if e.all_day then
    push_block minBar y height placed y (all_day_bar_height wrap lh minBar height e) e
  else
    push_block minBar y height placed (timed_top y height e) (timed_bar_height minBar height e) e

/-- The placement loop shared verbatim by week_renderer._draw_events_in_cell
and four_day_renderer._draw_events_in_column. -/
def day_place_core (wrap : CalendarEvent → Int → Nat) (lh minBar y height : Int)
    (events : List CalendarEvent) : List Placed :=
  events.foldl (place_one wrap lh minBar y height) []

/-- Dynamic sizing of week_renderer (lines 218-229): (line_height,
min_bar_height) from the number of events shown. -/
def week_sizing (n : Nat) : Int × Int :=
  if n ≤ 2 then (18, 36) else if n ≤ 4 then (16, 28) else (14, 22)

/-- Dynamic sizing of four_day_renderer (lines 198-209). -/
def four_day_sizing (n : Nat) : Int × Int :=
  if n ≤ 3 then (18, 36) else if n ≤ 6 then (16, 28) else (14, 22)

/-- filtered_events: drop events whose identity key is among the consumed
span keys (week_renderer.py line 212). -/
def span_filtered (spanKeys : List EventKey) (events : List CalendarEvent) :
    List CalendarEvent :=
  events.filter (fun e => decide (event_key e ∉ spanKeys))

/-- week_renderer._draw_events_in_cell: filter out span-consumed events,
keep the first max_events_per_day (default 5), size, and run the
placement loop. -/
def draw_events_in_cell (wrap : CalendarEvent → Int → Nat) (cfgMaxEvents : Option Nat)
    (y height : Int) (events : List CalendarEvent) (spanKeys : List EventKey) :
    List Placed :=
  let toShow := (span_filtered spanKeys events).take (cfgMaxEvents.getD 5)
  let sz := week_sizing toShow.length
  day_place_core wrap sz.1 sz.2 y height toShow

/-- four_day_renderer._draw_events_in_column: same loop, default cap 10,
four-day sizing. -/
def draw_events_in_column (wrap : CalendarEvent → Int → Nat) (cfgMaxEvents : Option Nat)
    (y height : Int) (events : List CalendarEvent) (spanKeys : List EventKey) :
    List Placed :=
  let toShow := (span_filtered spanKeys events).take (cfgMaxEvents.getD 10)
  let sz := four_day_sizing toShow.length
  day_place_core wrap sz.1 sz.2 y height toShow

/-! ### Spec-level derived notions used in the theorem statements -/

/-- All events attached to any day of the row. -/
def row_events (dates : List Int) (evmap : Int → Option (List CalendarEvent)) :
    List CalendarEvent :=
  (dates.map (fun d => (evmap d).getD [])).flatten

/-- The number of unique qualifying multi-day all-day events of a row:
distinct identity keys among qualifying events attached to the row. -/
def unique_qualifying_count (rowStart rowEnd : Int) (dates : List Int)
    (evmap : Int → Option (List CalendarEvent)) : Nat :=
  (((row_events dates evmap).filter (qualifies rowStart rowEnd)).map event_key).dedup.length

/-- Two spans do not index-overlap: one ends strictly before the other
starts. -/
def span_disjoint (a b : SpanT) : Prop :=
  a.endIdx < b.startIdx ∨ b.endIdx < a.startIdx

/-- The strict vertical non-overlap chain of the spec: each placed block
ends at or above the top of the next one in placement order. -/
def blocks_chain (blocks : List Placed) : Prop :=
  List.Chain' (fun a b => a.top + a.height ≤ b.top) blocks

/-! ### Helper lemmas about the placement loop -/

lemma push_block_spec (minBar y height c bh : Int) (placed : List Placed) (e : CalendarEvent) :
    push_block minBar y height placed c bh e = placed ∨
    ∃ ht, push_block minBar y height placed c bh e
        = placed ++ [⟨nudge_fold bh (slots_of placed) c, ht, e⟩] ∧
      (ht = bh ∨ (minBar ≤ ht ∧ nudge_fold bh (slots_of placed) c + ht = y + height ∧ ht ≤ bh)) ∧
      nudge_fold bh (slots_of placed) c + ht ≤ y + height := by
  unfold push_block
  set f := nudge_fold bh (slots_of placed) c with hf
  by_cases h1 : f + bh > y + height
  · simp only [h1, if_true]
    by_cases h2 : f + max (y + height - f) minBar > y + height
    · simp [h2]
    · right
      refine ⟨max (y + height - f) minBar, by simp [h2], ?_, by omega⟩
      right
      refine ⟨le_max_right _ _, by omega, by omega⟩
  · simp only [h1, if_false]
    right
    exact ⟨bh, rfl, Or.inl rfl, by omega⟩

lemma place_one_spec (wrap : CalendarEvent → Int → Nat) (lh minBar y height : Int)
    (placed : List Placed) (e : CalendarEvent) :
    place_one wrap lh minBar y height placed e = placed ∨
    ∃ t ht, place_one wrap lh minBar y height placed e = placed ++ [⟨t, ht, e⟩] := by
  unfold place_one
  by_cases ha : e.all_day <;> simp only [ha, if_true, if_false, Bool.false_eq_true] <;>
    rcases push_block_spec minBar y height _ _ placed e with h | ⟨ht, h, _⟩ <;>
      first
        | exact Or.inl h
        | exact Or.inr ⟨_, ht, h⟩

lemma foldl_place_mem (wrap : CalendarEvent → Int → Nat) (lh minBar y height : Int) :
    ∀ (events : List CalendarEvent) (placed : List Placed) (p : Placed),
      p ∈ events.foldl (place_one wrap lh minBar y height) placed →
      p ∈ placed ∨ p.ev ∈ events := by
  intro events
  induction events with
  | nil => intro placed p hp; exact Or.inl hp
  | cons e rest ih =>
    intro placed p hp
    simp only [List.foldl_cons] at hp
    rcases ih _ p hp with hmem | hev
    · rcases place_one_spec wrap lh minBar y height placed e with hcase | ⟨t, ht, hcase⟩
      · rw [hcase] at hmem; exact Or.inl hmem
      · rw [hcase, List.mem_append] at hmem
        rcases hmem with h | h
        · exact Or.inl h
        · simp only [List.mem_singleton] at h
          subst h
          exact Or.inr (List.mem_cons_self _ _)
    · exact Or.inr (List.mem_cons_of_mem _ hev)

/-- The invariant that every recorded block ends at or above the bottom of
the region is preserved by the loop. -/
lemma foldl_place_bound (wrap : CalendarEvent → Int → Nat) (lh minBar y height : Int) :
    ∀ (events : List CalendarEvent) (placed : List Placed),
      (∀ p ∈ placed, p.top + p.height ≤ y + height) →
      ∀ p ∈ events.foldl (place_one wrap lh minBar y height) placed,
        p.top + p.height ≤ y + height := by
  intro events
  induction events with
  | nil => intro placed h p hp; exact h p hp
  | cons e rest ih =>
    intro placed h p hp
    simp only [List.foldl_cons] at hp
    refine ih _ ?_ p hp
    intro q hq
    unfold place_one at hq
    by_cases ha : e.all_day <;> simp only [ha, if_true, if_false, Bool.false_eq_true] at hq <;>
      [ rcases push_block_spec minBar y height y (all_day_bar_height wrap lh minBar height e)
          placed e with hc | ⟨ht, hc, _, hbound⟩;
        rcases push_block_spec minBar y height (timed_top y height e)
          (timed_bar_height minBar height e) placed e with hc | ⟨ht, hc, _, hbound⟩ ] <;>
      rw [hc] at hq <;>
      first
        | exact h q hq
        | · rw [List.mem_append] at hq
            rcases hq with hq | hq
            · exact h q hq
            · simp only [List.mem_singleton] at hq
              subst hq
              exact hbound

lemma all_day_bar_height_bounds (wrap : CalendarEvent → Int → Nat) (lh minBar height : Int)
    (e : CalendarEvent) :
    min minBar (all_day_max_height minBar height) ≤ all_day_bar_height wrap lh minBar height e ∧
    all_day_bar_height wrap lh minBar height e ≤ all_day_max_height minBar height := by
  unfold all_day_bar_height
  set admax := all_day_max_height minBar height
  set bar1 := max minBar ((wrap e (max_text_lines lh admax) : Int) * lh + 4) with hbar1
  have h1 : minBar ≤ bar1 := le_max_left _ _
  by_cases h : bar1 > admax <;> simp only [h, if_true, if_false] <;> omega

lemma foldl_place_heights (wrap : CalendarEvent → Int → Nat) (lh minBar y height : Int) :
    ∀ (events : List CalendarEvent) (placed : List Placed),
      (∀ p ∈ placed,
        min minBar (all_day_max_height minBar height) ≤ p.height ∧
        (p.ev.all_day = false → minBar ≤ p.height) ∧
        (p.ev.all_day = true → p.height ≤ all_day_max_height minBar height)) →
      ∀ p ∈ events.foldl (place_one wrap lh minBar y height) placed,
        min minBar (all_day_max_height minBar height) ≤ p.height ∧
        (p.ev.all_day = false → minBar ≤ p.height) ∧
        (p.ev.all_day = true → p.height ≤ all_day_max_height minBar height) := by
  intro events
  induction events with
  | nil => intro placed h p hp; exact h p hp
  | cons e rest ih =>
    intro placed h p hp
    simp only [List.foldl_cons] at hp
    refine ih _ ?_ p hp
    intro q hq
    unfold place_one at hq
    by_cases ha : e.all_day
    · simp only [ha, if_true] at hq
      rcases push_block_spec minBar y height y (all_day_bar_height wrap lh minBar height e)
        placed e with hc | ⟨ht, hc, hhts, _⟩
      · rw [hc] at hq; exact h q hq
      · rw [hc, List.mem_append] at hq
        rcases hq with hq | hq
        · exact h q hq
        · simp only [List.mem_singleton] at hq
          subst hq
          have hb := all_day_bar_height_bounds wrap lh minBar height e
          refine ⟨?_, fun hcontra => ?_, fun _ => ?_⟩ <;> dsimp only at *
          · rcases hhts with hh | hh <;> omega
          · rw [ha] at hcontra; exact absurd hcontra (by decide)
          · rcases hhts with hh | hh <;> omega
    · simp only [ha, if_false, Bool.false_eq_true] at hq
      rcases push_block_spec minBar y height (timed_top y height e)
        (timed_bar_height minBar height e) placed e with hc | ⟨ht, hc, hhts, _⟩
      · rw [hc] at hq; exact h q hq
      · rw [hc, List.mem_append] at hq
        rcases hq with hq | hq
        · exact h q hq
        · simp only [List.mem_singleton] at hq
          subst hq
          have hb : minBar ≤ timed_bar_height minBar height e := le_max_right _ _
          refine ⟨?_, fun _ => ?_, fun hcontra => ?_⟩ <;> dsimp only at *
          · rcases hhts with hh | hh <;> omega
          · rcases hhts with hh | hh <;> omega
          · exact absurd hcontra ha

lemma foldl_place_clamp (wrap : CalendarEvent → Int → Nat) (lh minBar y height : Int) :
    ∀ (events : List CalendarEvent) (placed : List Placed),
      (∀ p ∈ placed, p.ev.all_day = false →
        minBar ≤ p.height ∧
        (p.height ≠ timed_bar_height minBar height p.ev → p.top + p.height = y + height)) →
      ∀ p ∈ events.foldl (place_one wrap lh minBar y height) placed,
        p.ev.all_day = false →
        minBar ≤ p.height ∧
        (p.height ≠ timed_bar_height minBar height p.ev → p.top + p.height = y + height) := by
  intro events
  induction events with
  | nil => intro placed h p hp; exact h p hp
  | cons e rest ih =>
    intro placed h p hp
    simp only [List.foldl_cons] at hp
    refine ih _ ?_ p hp
    intro q hq hqday
    unfold place_one at hq
    by_cases ha : e.all_day
    · simp only [ha, if_true] at hq
      rcases push_block_spec minBar y height y (all_day_bar_height wrap lh minBar height e)
        placed e with hc | ⟨ht, hc, _, _⟩
      · rw [hc] at hq; exact h q hq hqday
      · rw [hc, List.mem_append] at hq
        rcases hq with hq | hq
        · exact h q hq hqday
        · simp only [List.mem_singleton] at hq
          subst hq
          dsimp only at hqday
          rw [ha] at hqday
          exact absurd hqday (by decide)
    · simp only [ha, if_false, Bool.false_eq_true] at hq
      rcases push_block_spec minBar y height (timed_top y height e)
        (timed_bar_height minBar height e) placed e with hc | ⟨ht, hc, hhts, _⟩
      · rw [hc] at hq; exact h q hq hqday
      · rw [hc, List.mem_append] at hq
        rcases hq with hq | hq
        · exact h q hq hqday
        · simp only [List.mem_singleton] at hq
          subst hq
          have hb : minBar ≤ timed_bar_height minBar height e := le_max_right _ _
          dsimp only at *
          rcases hhts with hh | hh
          · exact ⟨by omega, fun hne => absurd hh hne⟩
          · exact ⟨by omega, fun _ => by omega⟩

/-! ### Claims about the Day Event Placer: bottom clamping, skipping, heights -/

/-- C4 counterexample: in a 40-pixel week cell, two one-hour events at
6:00 are considered (both survive the span filter and the cap), the first
is placed at (0, 36), and the second cannot fit even at min_bar_height:
it is skipped.  The placer's entire output is the single block of the
first event; no overflow count of any kind is produced for the skipped
event. -/
theorem day_place_overflow_cex :
    ((span_filtered [] [⟨"c", "x", ⟨1, 360⟩, ⟨1, 420⟩, false⟩,
        ⟨"c", "y", ⟨1, 360⟩, ⟨1, 420⟩, false⟩]).take 5).length = 2 ∧
    (draw_events_in_cell (fun _ _ => 1) none 0 40
        [⟨"c", "x", ⟨1, 360⟩, ⟨1, 420⟩, false⟩, ⟨"c", "y", ⟨1, 360⟩, ⟨1, 420⟩, false⟩]
        []).map (fun p => (p.top, p.height, p.ev.title)) = [(0, 36, "x")] := by
  decide

/-- C4 (amended): an event whose block cannot fit above the bottom of the
region even after clamping is skipped, silently and without any overflow
count; every block the placer does record ends at or above the bottom of
the region. -/
theorem day_place_within_region (wrap : CalendarEvent → Int → Nat)
    (lh minBar y height : Int) (events : List CalendarEvent) :
    ∀ p ∈ day_place_core wrap lh minBar y height events,
      p.top + p.height ≤ y + height := by
  intro p hp
  exact foldl_place_bound wrap lh minBar y height events [] (by simp) p hp

theorem day_place_within_region_witness :
    (⟨0, 36, ⟨"c", "x", ⟨1, 360⟩, ⟨1, 420⟩, false⟩⟩ : Placed).top
      + (⟨0, 36, ⟨"c", "x", ⟨1, 360⟩, ⟨1, 420⟩, false⟩⟩ : Placed).height ≤ 0 + 40 :=
  day_place_within_region (fun _ _ => 1) 18 36 0 40
    [⟨"c", "x", ⟨1, 360⟩, ⟨1, 420⟩, false⟩]
    ⟨0, 36, ⟨"c", "x", ⟨1, 360⟩, ⟨1, 420⟩, false⟩⟩ (by decide)

/-- C5 counterexample: a single all-day event in a 60-pixel week cell.
week_sizing gives min_bar_height 36, but all_day_max_height =
min(60 // 3, 36 * 3) = 20 caps the block at height 20 < 36: the placed
height is below min_block_height. -/
theorem block_min_height_cex :
    (draw_events_in_cell (fun _ _ => 1) none 0 60
        [⟨"c", "allday", ⟨1, 0⟩, ⟨2, 0⟩, true⟩] []).map (fun p => (p.top, p.height))
      = [(0, 20)] ∧
    week_sizing 1 = (18, 36) ∧ ¬ ((36 : Int) ≤ 20) := by
  decide

/-- C5 (amended): only all-day blocks are grown to fit their wrapped
title, and the growth is capped at all_day_max_height, which can lie
below min_bar_height; every placed block's height is at least
min(min_bar_height, all_day_max_height), a timed block's height is never
below min_bar_height, and an all-day block's height never exceeds
all_day_max_height. -/
theorem day_place_height_bounds (wrap : CalendarEvent → Int → Nat)
    (lh minBar y height : Int) (events : List CalendarEvent) :
    ∀ p ∈ day_place_core wrap lh minBar y height events,
      min minBar (all_day_max_height minBar height) ≤ p.height ∧
      (p.ev.all_day = false → minBar ≤ p.height) ∧
      (p.ev.all_day = true → p.height ≤ all_day_max_height minBar height) := by
  intro p hp
  exact foldl_place_heights wrap lh minBar y height events [] (by simp) p hp

theorem day_place_height_bounds_witness :
    min 36 (all_day_max_height 36 60)
        ≤ (⟨0, 20, ⟨"c", "allday", ⟨1, 0⟩, ⟨2, 0⟩, true⟩⟩ : Placed).height ∧
      ((⟨0, 20, ⟨"c", "allday", ⟨1, 0⟩, ⟨2, 0⟩, true⟩⟩ : Placed).ev.all_day = false →
        36 ≤ (⟨0, 20, ⟨"c", "allday", ⟨1, 0⟩, ⟨2, 0⟩, true⟩⟩ : Placed).height) ∧
      ((⟨0, 20, ⟨"c", "allday", ⟨1, 0⟩, ⟨2, 0⟩, true⟩⟩ : Placed).ev.all_day = true →
        (⟨0, 20, ⟨"c", "allday", ⟨1, 0⟩, ⟨2, 0⟩, true⟩⟩ : Placed).height
          ≤ all_day_max_height 36 60) :=
  day_place_height_bounds (fun _ _ => 1) 18 36 0 60
    [⟨"c", "allday", ⟨1, 0⟩, ⟨2, 0⟩, true⟩]
    ⟨0, 20, ⟨"c", "allday", ⟨1, 0⟩, ⟨2, 0⟩, true⟩⟩ (by decide)

/-- C6 counterexample: two one-hour events at 9:00 in a 400-pixel week
cell.  The first is placed at (75, 36); the second's time-based top 75
intrudes into it and is pushed to 113 = 75 + 36 + 2, two pixels below
where the previous block ends, not exactly at its end. -/
theorem nudge_gap_cex :
    (draw_events_in_cell (fun _ _ => 1) none 0 400
        [⟨"c", "x", ⟨1, 540⟩, ⟨1, 600⟩, false⟩, ⟨"c", "y", ⟨1, 540⟩, ⟨1, 600⟩, false⟩]
        []).map (fun p => (p.top, p.height)) = [(75, 36), (113, 36)] ∧
    (113 : Int) ≠ 75 + 36 := by
  decide

/-- C6 (amended): when a candidate top would intrude into a previously
placed block, the nudge loop moves it to exactly two pixels below the end
of that block (previous top + previous height + 2). -/
theorem nudge_pushes_below_previous (prev : Placed) (c bh : Int)
    (h1 : c < prev.top + prev.height) (h2 : prev.top < c + bh) :
    nudge_fold bh (slots_of [prev]) c = prev.top + prev.height + 2 := by
  unfold nudge_fold slots_of nudge_step
  simp only [List.map_cons, List.map_nil, List.foldl_cons, List.foldl_nil]
  rw [if_pos ⟨h1, h2⟩]

theorem nudge_pushes_below_previous_witness :
    nudge_fold 30 (slots_of [⟨10, 20, ⟨"c", "x", ⟨1, 540⟩, ⟨1, 600⟩, false⟩⟩]) 5
      = (10 : Int) + 20 + 2 :=
  nudge_pushes_below_previous ⟨10, 20, ⟨"c", "x", ⟨1, 540⟩, ⟨1, 600⟩, false⟩⟩ 5 30
    (by decide) (by decide)

/-- C7 counterexample: one all-day event in a 100-pixel week cell whose
title wraps to 5 lines.  all_day_max_height = min(100 // 3, 108) = 33
caps the block at height 33 < 36 = min_bar_height, yet the block is not
clamped at the bottom of the region (top + height = 33, not 100). -/
theorem clamp_exception_cex :
    (draw_events_in_cell (fun _ _ => 5) none 0 100
        [⟨"c", "ad", ⟨2, 0⟩, ⟨3, 0⟩, true⟩] []).map (fun p => (p.top, p.height))
      = [(0, 33)] ∧
    ¬ ((36 : Int) ≤ 33 ∨ (0 : Int) + 33 = 0 + 100) := by
  decide

/-- C7 (amended): every placed block of a timed event has height at least
min_bar_height, even when clamped; and when its height differs from the
duration-based bar height (the bottom clamp), its bottom coincides
exactly with the bottom of the region.  Only all-day blocks can fall
below min_bar_height, via the all_day_max_height cap. -/
theorem timed_block_height_clamp (wrap : CalendarEvent → Int → Nat)
    (lh minBar y height : Int) (events : List CalendarEvent) :
    ∀ p ∈ day_place_core wrap lh minBar y height events,
      p.ev.all_day = false →
      minBar ≤ p.height ∧
      (p.height ≠ timed_bar_height minBar height p.ev → p.top + p.height = y + height) := by
  intro p hp
  exact foldl_place_clamp wrap lh minBar y height events [] (by simp) p hp

theorem timed_block_height_clamp_witness :
    (36 : Int) ≤ (⟨350, 50, ⟨"c", "late", ⟨0, 1200⟩, ⟨1, 60⟩, false⟩⟩ : Placed).height ∧
      ((⟨350, 50, ⟨"c", "late", ⟨0, 1200⟩, ⟨1, 60⟩, false⟩⟩ : Placed).height
          ≠ timed_bar_height 36 400 (⟨"c", "late", ⟨0, 1200⟩, ⟨1, 60⟩, false⟩ : CalendarEvent) →
        (⟨350, 50, ⟨"c", "late", ⟨0, 1200⟩, ⟨1, 60⟩, false⟩⟩ : Placed).top
            + (⟨350, 50, ⟨"c", "late", ⟨0, 1200⟩, ⟨1, 60⟩, false⟩⟩ : Placed).height
          = 0 + 400) :=
  timed_block_height_clamp (fun _ _ => 1) 18 36 0 400
    [⟨"c", "late", ⟨0, 1200⟩, ⟨1, 60⟩, false⟩]
    ⟨350, 50, ⟨"c", "late", ⟨0, 1200⟩, ⟨1, 60⟩, false⟩⟩ (by decide) (by decide)

/-! ### Claim about the per-day cap -/

/-- C10: each day placer works on exactly the first max_events_per_day
events of the span-filtered list (default 5 in the week view, 10 in the
four-day view): any two event lists agreeing on that prefix produce
identical placements, so events beyond the cap are excluded before any
placement and leave no trace in the output (the week and four-day
renderers produce no overflow indicator at all). -/
theorem day_cap_prefix_stable :
    (∀ (wrap : CalendarEvent → Int → Nat) (cfg : Option Nat) (y height : Int)
      (ev1 ev2 : List CalendarEvent) (ks : List EventKey),
      (span_filtered ks ev1).take (cfg.getD 5) = (span_filtered ks ev2).take (cfg.getD 5) →
      draw_events_in_cell wrap cfg y height ev1 ks
        = draw_events_in_cell wrap cfg y height ev2 ks) ∧
    (∀ (wrap : CalendarEvent → Int → Nat) (cfg : Option Nat) (y height : Int)
      (ev1 ev2 : List CalendarEvent) (ks : List EventKey),
      (span_filtered ks ev1).take (cfg.getD 10) = (span_filtered ks ev2).take (cfg.getD 10) →
      draw_events_in_column wrap cfg y height ev1 ks
        = draw_events_in_column wrap cfg y height ev2 ks) := by
  constructor <;> intro wrap cfg y height ev1 ev2 ks h <;>
    simp only [draw_events_in_cell, draw_events_in_column, h]

theorem day_cap_prefix_stable_witness :
    draw_events_in_cell (fun _ _ => 1) none 0 400
        [⟨"c", "1", ⟨1, 360⟩, ⟨1, 420⟩, false⟩, ⟨"c", "2", ⟨1, 420⟩, ⟨1, 480⟩, false⟩,
         ⟨"c", "3", ⟨1, 480⟩, ⟨1, 540⟩, false⟩, ⟨"c", "4", ⟨1, 540⟩, ⟨1, 600⟩, false⟩,
         ⟨"c", "5", ⟨1, 600⟩, ⟨1, 660⟩, false⟩, ⟨"c", "6", ⟨1, 660⟩, ⟨1, 720⟩, false⟩] []
      = draw_events_in_cell (fun _ _ => 1) none 0 400
        [⟨"c", "1", ⟨1, 360⟩, ⟨1, 420⟩, false⟩, ⟨"c", "2", ⟨1, 420⟩, ⟨1, 480⟩, false⟩,
         ⟨"c", "3", ⟨1, 480⟩, ⟨1, 540⟩, false⟩, ⟨"c", "4", ⟨1, 540⟩, ⟨1, 600⟩, false⟩,
         ⟨"c", "5", ⟨1, 600⟩, ⟨1, 660⟩, false⟩] [] :=
  day_cap_prefix_stable.1 (fun _ _ => 1) none 0 400
    [⟨"c", "1", ⟨1, 360⟩, ⟨1, 420⟩, false⟩, ⟨"c", "2", ⟨1, 420⟩, ⟨1, 480⟩, false⟩,
     ⟨"c", "3", ⟨1, 480⟩, ⟨1, 540⟩, false⟩, ⟨"c", "4", ⟨1, 540⟩, ⟨1, 600⟩, false⟩,
     ⟨"c", "5", ⟨1, 600⟩, ⟨1, 660⟩, false⟩, ⟨"c", "6", ⟨1, 660⟩, ⟨1, 720⟩, false⟩]
    [⟨"c", "1", ⟨1, 360⟩, ⟨1, 420⟩, false⟩, ⟨"c", "2", ⟨1, 420⟩, ⟨1, 480⟩, false⟩,
     ⟨"c", "3", ⟨1, 480⟩, ⟨1, 540⟩, false⟩, ⟨"c", "4", ⟨1, 540⟩, ⟨1, 600⟩, false⟩,
     ⟨"c", "5", ⟨1, 600⟩, ⟨1, 660⟩, false⟩] [] (by decide)

/-! ### Lane Packer lemmas: lane invariant, conservation, keys -/

lemma lane_accepts_disjoint {lane : List SpanT} {s : SpanT}
    (h : lane_accepts lane s = true) : ∀ ex ∈ lane, span_disjoint ex s := by
  intro ex hex
  unfold lane_accepts at h
  rw [List.all_eq_true] at h
  have := h ex hex
  simp only [Bool.or_eq_true, decide_eq_true_eq] at this
  unfold span_disjoint
  omega

lemma try_place_pairwise (s : SpanT) :
    ∀ (lanes lanes' : List (List SpanT)),
      (∀ lane ∈ lanes, lane.Pairwise span_disjoint) →
      try_place_in_lanes s lanes = some lanes' →
      ∀ lane ∈ lanes', lane.Pairwise span_disjoint := by
  intro lanes
  induction lanes with
  | nil => intro lanes' _ h; simp [try_place_in_lanes] at h
  | cons l ls ih =>
    intro lanes' hinv h
    unfold try_place_in_lanes at h
    by_cases hacc : lane_accepts l s = true
    · rw [if_pos hacc] at h
      injection h with h
      subst h
      intro lane hlane
      rcases List.mem_cons.1 hlane with hlane | hlane
      · subst hlane
        rw [List.pairwise_append]
        refine ⟨hinv l (List.mem_cons_self _ _), List.pairwise_singleton _ _, ?_⟩
        intro a ha b hb
        simp only [List.mem_singleton] at hb
        subst hb
        exact lane_accepts_disjoint hacc a ha
      · exact hinv lane (List.mem_cons_of_mem _ hlane)
    · rw [if_neg hacc] at h
      cases htry : try_place_in_lanes s ls with
      | none => rw [htry] at h; exact absurd h (by simp)
      | some ls' =>
        rw [htry] at h
        injection h with h
        subst h
        intro lane hlane
        rcases List.mem_cons.1 hlane with hlane | hlane
        · subst hlane; exact hinv lane (List.mem_cons_self _ _)
        · exact ih ls' (fun la hla => hinv la (List.mem_cons_of_mem _ hla)) htry lane hlane

lemma greedy_invariant (maxLanes : Nat) :
    ∀ (spans : List SpanT) (st : List (List SpanT) × Nat),
      (∀ lane ∈ st.1, lane.Pairwise span_disjoint) →
      ∀ lane ∈ (spans.foldl (greedy_step maxLanes) st).1, lane.Pairwise span_disjoint := by
  intro spans
  induction spans with
  | nil => intro st h; exact h
  | cons s rest ih =>
    intro st h
    rw [List.foldl_cons]
    refine ih _ ?_
    unfold greedy_step
    cases htry : try_place_in_lanes s st.1 with
    | some lanes' =>
      simp only
      exact try_place_pairwise s st.1 lanes' h htry
    | none =>
      simp only
      by_cases hlen : st.1.length < maxLanes
      · rw [if_pos hlen]
        intro lane hlane
        rcases List.mem_append.1 hlane with hl | hl
        · exact h lane hl
        · simp only [List.mem_singleton] at hl
          subst hl
          exact List.pairwise_singleton _ _
      · rw [if_neg hlen]
        exact h

/-- C3: at every point during the greedy assignment (after any prefix of
the span list) and at the end, every lane holds only pairwise
non-overlapping spans: for any two spans of one lane, one ends strictly
before the other starts. -/
theorem lanes_pairwise_disjoint (spans : List SpanT) (maxLanes n : Nat) :
    ∀ lane ∈ (greedy_assign maxLanes (spans.take n)).1, lane.Pairwise span_disjoint := by
  intro lane hlane
  exact greedy_invariant maxLanes (spans.take n) ([], 0) (by simp) lane hlane

theorem lanes_pairwise_disjoint_witness :
    List.Pairwise span_disjoint [⟨0, 2, ⟨"c", "a", ⟨0, 0⟩, ⟨3, 0⟩, true⟩⟩] :=
  lanes_pairwise_disjoint
    [⟨0, 2, ⟨"c", "a", ⟨0, 0⟩, ⟨3, 0⟩, true⟩⟩, ⟨1, 3, ⟨"c", "b", ⟨1, 0⟩, ⟨4, 0⟩, true⟩⟩]
    3 2 [⟨0, 2, ⟨"c", "a", ⟨0, 0⟩, ⟨3, 0⟩, true⟩⟩] (by decide)

/-- Total number of spans placed across all lanes. -/
def lanes_size (lanes : List (List SpanT)) : Nat := (lanes.map List.length).sum

lemma try_place_size (s : SpanT) :
    ∀ (lanes lanes' : List (List SpanT)),
      try_place_in_lanes s lanes = some lanes' →
      lanes_size lanes' = lanes_size lanes + 1 := by
  intro lanes
  induction lanes with
  | nil => intro lanes' h; simp [try_place_in_lanes] at h
  | cons l ls ih =>
    intro lanes' h
    unfold try_place_in_lanes at h
    by_cases hacc : lane_accepts l s = true
    · rw [if_pos hacc] at h
      injection h with h
      subst h
      simp [lanes_size]
      omega
    · rw [if_neg hacc] at h
      cases htry : try_place_in_lanes s ls with
      | none => rw [htry] at h; exact absurd h (by simp)
      | some ls' =>
        rw [htry] at h
        injection h with h
        subst h
        have := ih ls' htry
        simp [lanes_size] at this ⊢
        omega

lemma greedy_conservation (maxLanes : Nat) :
    ∀ (spans : List SpanT) (st : List (List SpanT) × Nat),
      lanes_size (spans.foldl (greedy_step maxLanes) st).1
          + (spans.foldl (greedy_step maxLanes) st).2
        = lanes_size st.1 + st.2 + spans.length := by
  intro spans
  induction spans with
  | nil => intro st; simp
  | cons s rest ih =>
    intro st
    rw [List.foldl_cons]
    rw [ih]
    unfold greedy_step
    cases htry : try_place_in_lanes s st.1 with
    | some lanes' =>
      simp only
      have := try_place_size s st.1 lanes' htry
      simp
      omega
    | none =>
      simp only
      by_cases hlen : st.1.length < maxLanes
      · rw [if_pos hlen]
        simp [lanes_size]
        omega
      · rw [if_neg hlen]
        simp
        omega

/-- The body of the collection loop for one event. -/
def insert_qualifying (rowStart rowEnd : Int) (m : List (EventKey × CalendarEvent))
    (e : CalendarEvent) : List (EventKey × CalendarEvent) :=
  if qualifies rowStart rowEnd e then upsert m (event_key e) e else m

lemma collect_eq_foldl (rowStart rowEnd : Int)
    (evmap : Int → Option (List CalendarEvent)) :
    ∀ (dates : List Int) (m : List (EventKey × CalendarEvent)),
      dates.foldl (fun m' day =>
        match evmap day with
        | none => m'
        | some evs =>
          evs.foldl (fun m'' e =>
            if qualifies rowStart rowEnd e then upsert m'' (event_key e) e else m'') m') m
      = (row_events dates evmap).foldl (insert_qualifying rowStart rowEnd) m := by
  intro dates
  induction dates with
  | nil => intro m; simp [row_events]
  | cons d rest ih =>
    intro m
    rw [List.foldl_cons]
    have hrow : row_events (d :: rest) evmap
        = (evmap d).getD [] ++ row_events rest evmap := by
      simp [row_events]
    rw [hrow, List.foldl_append]
    have hstep : (match evmap d with
        | none => m
        | some evs =>
          evs.foldl (fun m'' e =>
            if qualifies rowStart rowEnd e then upsert m'' (event_key e) e else m'') m)
        = ((evmap d).getD []).foldl (insert_qualifying rowStart rowEnd) m := by
      cases evmap d with
      | none => simp
      | some evs => rfl
    rw [hstep, ih]

lemma collect_span_events_eq (rowStart rowEnd : Int) (dates : List Int)
    (evmap : Int → Option (List CalendarEvent)) :
    collect_span_events rowStart rowEnd dates evmap
      = (row_events dates evmap).foldl (insert_qualifying rowStart rowEnd) [] := by
  unfold collect_span_events
  exact collect_eq_foldl rowStart rowEnd evmap dates []

lemma upsert_fst (m : List (EventKey × CalendarEvent)) (k : EventKey) (v : CalendarEvent) :
    (upsert m k v).map Prod.fst
      = if k ∈ m.map Prod.fst then m.map Prod.fst else m.map Prod.fst ++ [k] := by
  unfold upsert
  by_cases h : (m.any (fun p => decide (p.1 = k))) = true
  · rw [if_pos h]
    have hk : k ∈ m.map Prod.fst := by
      rw [List.any_eq_true] at h
      obtain ⟨p, hp, hpk⟩ := h
      rw [decide_eq_true_eq] at hpk
      exact hpk ▸ List.mem_map_of_mem Prod.fst hp
    rw [if_pos hk, List.map_map]
    apply List.map_congr_left
    intro p _
    by_cases hpk : p.1 = k <;> simp [hpk, Function.comp]
  · rw [if_neg h]
    have hk : k ∉ m.map Prod.fst := by
      intro hmem
      apply h
      rw [List.any_eq_true]
      obtain ⟨p, hp, hpk⟩ := List.mem_map.1 hmem
      exact ⟨p, hp, by rw [decide_eq_true_eq]; exact hpk⟩
    rw [if_neg hk, List.map_append]
    rfl

lemma fold_insert_nodup (rowStart rowEnd : Int) :
    ∀ (evs : List CalendarEvent) (m : List (EventKey × CalendarEvent)),
      (m.map Prod.fst).Nodup →
      ((evs.foldl (insert_qualifying rowStart rowEnd) m).map Prod.fst).Nodup := by
  intro evs
  induction evs with
  | nil => intro m h; exact h
  | cons e rest ih =>
    intro m h
    rw [List.foldl_cons]
    refine ih _ ?_
    unfold insert_qualifying
    by_cases hq : qualifies rowStart rowEnd e = true
    · rw [if_pos hq, upsert_fst]
      by_cases hk : event_key e ∈ m.map Prod.fst
      · rw [if_pos hk]; exact h
      · rw [if_neg hk]
        rw [List.nodup_append]
        exact ⟨h, List.nodup_singleton _, by simpa [List.disjoint_singleton] using hk⟩
    · rw [if_neg hq]; exact h

lemma fold_insert_mem (rowStart rowEnd : Int) :
    ∀ (evs : List CalendarEvent) (m : List (EventKey × CalendarEvent)) (k : EventKey),
      (k ∈ (evs.foldl (insert_qualifying rowStart rowEnd) m).map Prod.fst ↔
        k ∈ m.map Prod.fst ∨ k ∈ (evs.filter (qualifies rowStart rowEnd)).map event_key) := by
  intro evs
  induction evs with
  | nil => intro m k; simp
  | cons e rest ih =>
    intro m k
    rw [List.foldl_cons, ih]
    unfold insert_qualifying
    by_cases hq : qualifies rowStart rowEnd e = true
    · rw [if_pos hq]
      rw [upsert_fst]
      by_cases hk : event_key e ∈ m.map Prod.fst
      · rw [if_pos hk]
        simp only [List.filter_cons, hq, if_true, List.map_cons, List.mem_cons]
        constructor
        · rintro (h | h)
          · exact Or.inl h
          · exact Or.inr (Or.inr h)
        · rintro (h | h | h)
          · exact Or.inl h
          · subst h; exact Or.inl hk
          · exact Or.inr h
      · rw [if_neg hk]
        simp only [List.mem_append, List.mem_singleton, List.filter_cons, hq, if_true,
          List.map_cons, List.mem_cons]
        tauto
    · rw [if_neg hq]
      simp only [List.filter_cons, hq]
      simp

lemma upsert_mem (m : List (EventKey × CalendarEvent)) (k : EventKey) (v : CalendarEvent) :
    ∀ q ∈ upsert m k v, q ∈ m ∨ q = (k, v) := by
  intro q hq
  unfold upsert at hq
  split at hq
  · obtain ⟨p, hp, hpq⟩ := List.mem_map.1 hq
    by_cases hpk : p.1 = k
    · right; rw [← hpq, if_pos hpk]
    · left; rw [← hpq, if_neg hpk]; exact hp
  · rcases List.mem_append.1 hq with h | h
    · exact Or.inl h
    · simp only [List.mem_singleton] at h
      exact Or.inr h

lemma fold_insert_values (rowStart rowEnd : Int) :
    ∀ (evs : List CalendarEvent) (m : List (EventKey × CalendarEvent)),
      (∀ p ∈ m, qualifies rowStart rowEnd p.2 = true ∧ p.1 = event_key p.2) →
      ∀ p ∈ evs.foldl (insert_qualifying rowStart rowEnd) m,
        qualifies rowStart rowEnd p.2 = true ∧ p.1 = event_key p.2 := by
  intro evs
  induction evs with
  | nil => intro m h; exact h
  | cons e rest ih =>
    intro m h
    rw [List.foldl_cons]
    refine ih _ ?_
    unfold insert_qualifying
    by_cases hq : qualifies rowStart rowEnd e = true
    · rw [if_pos hq]
      intro p hp
      rcases upsert_mem m (event_key e) e p hp with hp | hp
      · exact h p hp
      · subst hp; exact ⟨hq, rfl⟩
    · rw [if_neg hq]; exact h

lemma mk_span_ev {dates : List Int} {rowStart rowEnd : Int} {e : CalendarEvent} {s : SpanT}
    (h : mk_span dates rowStart rowEnd e = some s) : s.ev = e := by
  unfold mk_span at h
  split at h
  · injection h with h; rw [← h]
  · exact absurd h (by simp)

lemma spans_of_length (dates : List Int) (rowStart rowEnd : Int) :
    ∀ (m : List (EventKey × CalendarEvent)) (ss : List SpanT),
      spans_of dates rowStart rowEnd m = some ss → ss.length = m.length := by
  intro m
  induction m with
  | nil => intro ss h; unfold spans_of at h; injection h with h; rw [← h]; rfl
  | cons p rest ih =>
    intro ss h
    unfold spans_of at h
    cases hmk : mk_span dates rowStart rowEnd p.2 with
    | none => rw [hmk] at h; exact absurd h (by simp)
    | some s =>
      rw [hmk] at h
      cases hrest : spans_of dates rowStart rowEnd rest with
      | none => rw [hrest] at h; exact absurd h (by simp)
      | some ss' =>
        rw [hrest] at h
        injection h with h
        rw [← h]
        simp [ih ss' hrest]

lemma spans_of_keys (dates : List Int) (rowStart rowEnd : Int) :
    ∀ (m : List (EventKey × CalendarEvent)) (ss : List SpanT),
      spans_of dates rowStart rowEnd m = some ss →
      ss.map (fun s => event_key s.ev) = m.map (fun p => event_key p.2) := by
  intro m
  induction m with
  | nil => intro ss h; unfold spans_of at h; injection h with h; rw [← h]; rfl
  | cons p rest ih =>
    intro ss h
    unfold spans_of at h
    cases hmk : mk_span dates rowStart rowEnd p.2 with
    | none => rw [hmk] at h; exact absurd h (by simp)
    | some s =>
      rw [hmk] at h
      cases hrest : spans_of dates rowStart rowEnd rest with
      | none => rw [hrest] at h; exact absurd h (by simp)
      | some ss' =>
        rw [hrest] at h
        injection h with h
        rw [← h]
        simp only [List.map_cons, mk_span_ev hmk, ih ss' hrest]

lemma spans_of_isSome (dates : List Int) (rowStart rowEnd : Int) :
    ∀ (m : List (EventKey × CalendarEvent)),
      (∀ p ∈ m, (mk_span dates rowStart rowEnd p.2).isSome = true) →
      (spans_of dates rowStart rowEnd m).isSome = true := by
  intro m
  induction m with
  | nil => intro _; rfl
  | cons p rest ih =>
    intro h
    unfold spans_of
    cases hmk : mk_span dates rowStart rowEnd p.2 with
    | none =>
      have := h p (List.mem_cons_self _ _)
      rw [hmk] at this
      exact absurd this (by simp)
    | some s =>
      have hrest := ih (fun q hq => h q (List.mem_cons_of_mem _ hq))
      cases hr : spans_of dates rowStart rowEnd rest with
      | none => rw [hr] at hrest; exact absurd hrest (by simp)
      | some ss => simp

lemma try_place_flatten (s : SpanT) :
    ∀ (lanes lanes' : List (List SpanT)),
      try_place_in_lanes s lanes = some lanes' →
      lanes'.flatten.Perm (s :: lanes.flatten) := by
  intro lanes
  induction lanes with
  | nil => intro lanes' h; simp [try_place_in_lanes] at h
  | cons l ls ih =>
    intro lanes' h
    unfold try_place_in_lanes at h
    by_cases hacc : lane_accepts l s = true
    · rw [if_pos hacc] at h
      injection h with h
      subst h
      simp only [List.flatten_cons]
      have h1 : (l ++ [s]) ++ ls.flatten = l ++ (s :: ls.flatten) := by simp
      rw [h1]
      exact List.perm_middle
    · rw [if_neg hacc] at h
      cases htry : try_place_in_lanes s ls with
      | none => rw [htry] at h; exact absurd h (by simp)
      | some ls' =>
        rw [htry] at h
        injection h with h
        subst h
        simp only [List.flatten_cons]
        exact ((ih ls' htry).append_left l).trans List.perm_middle

lemma greedy_nodup (maxLanes : Nat) :
    ∀ (spans : List SpanT) (st : List (List SpanT) × Nat),
      ((st.1.flatten ++ spans).map (fun sp => event_key sp.ev)).Nodup →
      (((spans.foldl (greedy_step maxLanes) st).1.flatten).map
        (fun sp => event_key sp.ev)).Nodup := by
  intro spans
  induction spans with
  | nil => intro st h; simpa using h
  | cons s rest ih =>
    intro st h
    rw [List.foldl_cons]
    refine ih _ ?_
    unfold greedy_step
    cases htry : try_place_in_lanes s st.1 with
    | some lanes' =>
      simp only
      have hperm : (lanes'.flatten ++ rest).Perm (st.1.flatten ++ s :: rest) :=
        ((try_place_flatten s st.1 lanes' htry).append_right rest).trans
          List.perm_middle.symm
      exact ((hperm.map (fun sp => event_key sp.ev)).nodup_iff).2 h
    | none =>
      simp only
      by_cases hlen : st.1.length < maxLanes
      · rw [if_pos hlen]
        have heq : ((st.1 ++ [[s]]).flatten ++ rest) = st.1.flatten ++ s :: rest := by
          simp
        rw [heq]
        exact h
      · rw [if_neg hlen]
        have hsub : (st.1.flatten ++ rest).Sublist (st.1.flatten ++ s :: rest) :=
          (List.sublist_cons_self s rest).append_left st.1.flatten
        exact (hsub.map (fun sp => event_key sp.ev)).nodup h

/-- C1: conservation of the Lane Packer.  Whenever _get_all_day_span_lanes
returns, the total number of spans across the returned lanes plus the
overflow count equals the number of unique qualifying multi-day all-day
events of the row, and no event appears in two places of the lane
structure (the placed spans have pairwise distinct identity keys). -/
theorem lane_pack_conservation (d0 : Int) (ds : List Int)
    (evmap : Int → Option (List CalendarEvent)) (maxLanes : Nat)
    (lanes : List (List SpanT)) (ovf : Nat) (keys : List EventKey)
    (h : get_all_day_span_lanes (d0 :: ds) evmap maxLanes = some (lanes, ovf, keys)) :
    lanes_size lanes + ovf
        = unique_qualifying_count d0 ((d0 :: ds).getLastD d0) (d0 :: ds) evmap ∧
    ((lanes.flatten).map (fun s => event_key s.ev)).Nodup := by
  unfold get_all_day_span_lanes at h
  dsimp only at h
  set rowE := (d0 :: ds).getLastD d0 with hRE
  set dict := collect_span_events d0 rowE (d0 :: ds) evmap with hdict
  cases hsp : spans_of (d0 :: ds) d0 rowE dict with
  | none => rw [hsp] at h; exact absurd h (by simp)
  | some spans =>
    rw [hsp] at h
    injection h with h
    rw [Prod.mk.injEq, Prod.mk.injEq] at h
    obtain ⟨h1, h2, h3⟩ := h
    have hnodup : (dict.map Prod.fst).Nodup := by
      rw [hdict, collect_span_events_eq]
      exact fold_insert_nodup d0 rowE (row_events (d0 :: ds) evmap) [] (by simp)
    have hsetEq : (dict.map Prod.fst).toFinset
        = (((row_events (d0 :: ds) evmap).filter (qualifies d0 rowE)).map
            event_key).toFinset := by
      ext k
      rw [List.mem_toFinset, List.mem_toFinset, hdict, collect_span_events_eq,
        fold_insert_mem]
      simp
    have hcount : dict.length = unique_qualifying_count d0 rowE (d0 :: ds) evmap := by
      have e1 : dict.length = (dict.map Prod.fst).length := (List.length_map _ _).symm
      have e2 : (dict.map Prod.fst).toFinset.card = (dict.map Prod.fst).length :=
        List.toFinset_card_of_nodup hnodup
      have e3 : (((row_events (d0 :: ds) evmap).filter (qualifies d0 rowE)).map
            event_key).toFinset.card
          = (((row_events (d0 :: ds) evmap).filter (qualifies d0 rowE)).map
            event_key).dedup.length := List.card_toFinset _
      rw [hsetEq] at e2
      unfold unique_qualifying_count
      omega
    have hcons := greedy_conservation maxLanes (sort_spans spans) ([], 0)
    have hlen1 : (sort_spans spans).length = spans.length := (sort_spans_perm spans).length_eq
    have hlen2 : spans.length = dict.length := spans_of_length _ _ _ dict spans hsp
    have hvals : ∀ p ∈ dict, qualifies d0 rowE p.2 = true ∧ p.1 = event_key p.2 := by
      rw [hdict, collect_span_events_eq]
      exact fold_insert_values d0 rowE _ [] (by simp)
    have hspkeys : spans.map (fun s => event_key s.ev) = dict.map Prod.fst := by
      rw [spans_of_keys _ _ _ dict spans hsp]
      exact List.map_congr_left (fun p hp => ((hvals p hp).2).symm)
    have hsortkeys : ((sort_spans spans).map (fun s => event_key s.ev)).Nodup := by
      have hperm : (sort_spans spans).Perm spans := sort_spans_perm spans
      refine ((hperm.map _).nodup_iff).2 ?_
      rw [hspkeys]
      exact hnodup
    constructor
    · have hga : lanes_size (greedy_assign maxLanes (sort_spans spans)).1
          + (greedy_assign maxLanes (sort_spans spans)).2
          = lanes_size [] + 0 + (sort_spans spans).length := hcons
      have hnil : lanes_size ([] : List (List SpanT)) = 0 := rfl
      rw [← h1, ← h2]
      omega
    · have hflat := greedy_nodup maxLanes (sort_spans spans) ([], 0)
        (by simpa using hsortkeys)
      rw [← h1]
      exact hflat

/-! ### Row-shape lemmas and totality of the Lane Packer on real rows -/

lemma row_dates_mem (d0 : Int) (n : Nat) (x : Int) (h1 : d0 ≤ x) (h2 : x ≤ d0 + n) :
    x ∈ row_dates d0 (n + 1) := by
  unfold row_dates
  rw [List.mem_map]
  refine ⟨(x - d0).toNat, List.mem_range.2 ?_, ?_⟩ <;> omega

lemma row_dates_getLastD (d0 : Int) (n : Nat) :
    (row_dates d0 (n + 1)).getLastD d0 = d0 + n := by
  unfold row_dates
  rw [List.range_succ, List.map_append]
  simp

lemma row_dates_cons (d0 : Int) (n : Nat) :
    row_dates d0 (n + 1) = d0 :: (List.range n).map (fun i : Nat => d0 + (i : Int) + 1) := by
  unfold row_dates
  rw [List.range_succ_eq_map, List.map_cons, List.map_map]
  refine congrArg₂ _ (by simp) (List.map_congr_left ?_)
  intro a _
  simp [Function.comp]
  ring

lemma findIdx_isSome_of_mem {x : Int} {l : List Int} (h : x ∈ l) :
    (l.findIdx? (fun d => decide (d = x))).isSome = true := by
  cases hf : l.findIdx? (fun d => decide (d = x)) with
  | some i => rfl
  | none =>
    rw [List.findIdx?_eq_none_iff] at hf
    have := hf x h
    simp at this

lemma mk_span_isSome (dates : List Int) (rowStart rowEnd : Int) (e : CalendarEvent)
    (h1 : max e.start.day rowStart ∈ dates)
    (h2 : min (end_inclusive e) rowEnd ∈ dates) :
    (mk_span dates rowStart rowEnd e).isSome = true := by
  unfold mk_span
  obtain ⟨i, hi⟩ := Option.isSome_iff_exists.1 (findIdx_isSome_of_mem h1)
  obtain ⟨j, hj⟩ := Option.isSome_iff_exists.1 (findIdx_isSome_of_mem h2)
  rw [hi, hj]
  rfl

lemma pack_isSome (d0 : Int) (rest : List Int)
    (evmap : Int → Option (List CalendarEvent)) (maxLanes : Nat)
    (hle : d0 ≤ (d0 :: rest).getLastD d0)
    (hmem : ∀ x : Int, d0 ≤ x → x ≤ (d0 :: rest).getLastD d0 → x ∈ (d0 :: rest)) :
    (get_all_day_span_lanes (d0 :: rest) evmap maxLanes).isSome = true := by
  unfold get_all_day_span_lanes
  dsimp only
  set rowE := (d0 :: rest).getLastD d0 with hRE
  set dict := collect_span_events d0 rowE (d0 :: rest) evmap with hdict
  have hvals : ∀ p ∈ dict, qualifies d0 rowE p.2 = true ∧ p.1 = event_key p.2 := by
    rw [hdict, collect_span_events_eq]
    exact fold_insert_values _ _ _ [] (by simp)
  have hsp : (spans_of (d0 :: rest) d0 rowE dict).isSome = true := by
    apply spans_of_isSome
    intro p hp
    have hq := (hvals p hp).1
    unfold qualifies at hq
    simp only [Bool.and_eq_true, decide_eq_true_eq] at hq
    obtain ⟨⟨⟨_, hlt⟩, hre⟩, hse⟩ := hq
    refine mk_span_isSome _ _ _ _ (hmem _ (le_max_right _ _) (max_le hse hle)) ?_
    exact hmem _ (le_min hre hle) (min_le_right _ _)
  obtain ⟨spans, hspn⟩ := Option.isSome_iff_exists.1 hsp
  rw [hspn]
  rfl

/-- C8 counterexample: on an empty row of days, dates[0] raises IndexError
in _get_all_day_span_lanes (modelled by a none result), so the Lane Packer
does not return a result on every malformed input. -/
theorem empty_row_raises_cex :
    get_all_day_span_lanes [] (fun _ => none) 3 = none := rfl

/-- C8 (amended): on every nonempty contiguous row of days — the only
rows the renderers ever build — the Lane Packer returns a result for
every events map, every lane capacity, and arbitrary (also malformed)
event timestamps; only an empty or gapped row can make it raise.  The
Day Event Placer of the embedding is a total function by construction. -/
theorem pack_total_on_contiguous_rows (d0 : Int) (n : Nat)
    (evmap : Int → Option (List CalendarEvent)) (maxLanes : Nat) :
    (get_all_day_span_lanes (row_dates d0 (n + 1)) evmap maxLanes).isSome = true := by
  have hcons := row_dates_cons d0 n
  have hlast := row_dates_getLastD d0 n
  rw [hcons] at hlast ⊢
  apply pack_isSome
  · rw [hlast]
    omega
  · intro x hx1 hx2
    rw [hlast] at hx2
    rw [← hcons]
    exact row_dates_mem d0 n x hx1 hx2

theorem lane_pack_conservation_witness :
    lanes_size [[⟨0, 1, ⟨"c", "a", ⟨0, 0⟩, ⟨2, 0⟩, true⟩⟩]] + 0
        = unique_qualifying_count 0 (((0 : Int) :: [1]).getLastD 0) ((0 : Int) :: [1])
            (fun d => if d = 0 then some [⟨"c", "a", ⟨0, 0⟩, ⟨2, 0⟩, true⟩] else none) ∧
    (([[(⟨0, 1, ⟨"c", "a", ⟨0, 0⟩, ⟨2, 0⟩, true⟩⟩ : SpanT)]].flatten).map
      (fun s => event_key s.ev)).Nodup :=
  lane_pack_conservation 0 [1]
    (fun d => if d = 0 then some [⟨"c", "a", ⟨0, 0⟩, ⟨2, 0⟩, true⟩] else none) 3
    [[⟨0, 1, ⟨"c", "a", ⟨0, 0⟩, ⟨2, 0⟩, true⟩⟩]] 0
    [("c", "a", ⟨0, 0⟩, ⟨2, 0⟩)] (by rfl)

/-- C9: the consumed-keys set returned by the Lane Packer contains the
identity key of every qualifying multi-day all-day event of the row,
including those dropped as overflow; and the Day Event Placer, which
filters against this set, places no event whose key is in it — so an
overflowed multi-day event is drawn neither as a span bar (it is in no
lane) nor inside any day cell. -/
theorem span_keys_cover_and_exclude (d0 : Int) (ds : List Int)
    (evmap : Int → Option (List CalendarEvent)) (maxLanes : Nat)
    (lanes : List (List SpanT)) (ovf : Nat) (keys : List EventKey)
    (h : get_all_day_span_lanes (d0 :: ds) evmap maxLanes = some (lanes, ovf, keys)) :
    (∀ e ∈ row_events (d0 :: ds) evmap,
        qualifies d0 ((d0 :: ds).getLastD d0) e = true → event_key e ∈ keys) ∧
    (∀ (wrap : CalendarEvent → Int → Nat) (cfg : Option Nat) (y hh : Int)
        (events : List CalendarEvent),
        ∀ p ∈ draw_events_in_cell wrap cfg y hh events keys, event_key p.ev ∉ keys) := by
  unfold get_all_day_span_lanes at h
  dsimp only at h
  set rowE := (d0 :: ds).getLastD d0
  set dict := collect_span_events d0 rowE (d0 :: ds) evmap with hdict
  cases hsp : spans_of (d0 :: ds) d0 rowE dict with
  | none => rw [hsp] at h; exact absurd h (by simp)
  | some spans =>
    rw [hsp] at h
    injection h with h
    rw [Prod.mk.injEq, Prod.mk.injEq] at h
    obtain ⟨h1, h2, h3⟩ := h
    constructor
    · intro e hmem hq
      rw [← h3, hdict, collect_span_events_eq, fold_insert_mem]
      right
      exact List.mem_map_of_mem event_key (List.mem_filter.2 ⟨hmem, hq⟩)
    · intro wrap cfg y hh events p hp
      unfold draw_events_in_cell at hp
      dsimp only at hp
      unfold day_place_core at hp
      rcases foldl_place_mem wrap _ _ y hh _ [] p hp with hfalse | hev
      · simp at hfalse
      · have hev' : p.ev ∈ span_filtered keys events :=
          List.Sublist.mem hev (List.take_sublist _ _)
        unfold span_filtered at hev'
        have hdec := (List.mem_filter.1 hev').2
        rw [decide_eq_true_eq] at hdec
        exact hdec

theorem span_keys_cover_and_exclude_witness :
    event_key ⟨"c", "a", ⟨0, 0⟩, ⟨2, 0⟩, true⟩
      ∈ [(("c", "a", ⟨0, 0⟩, ⟨2, 0⟩) : EventKey), ("c", "b", ⟨1, 0⟩, ⟨3, 0⟩)] :=
  (span_keys_cover_and_exclude 0 [1]
    (fun d => if d = 0 then
        some [⟨"c", "a", ⟨0, 0⟩, ⟨2, 0⟩, true⟩, ⟨"c", "b", ⟨1, 0⟩, ⟨3, 0⟩, true⟩]
      else none)
    0 [] 2 [("c", "a", ⟨0, 0⟩, ⟨2, 0⟩), ("c", "b", ⟨1, 0⟩, ⟨3, 0⟩)] (by rfl)).1
    ⟨"c", "a", ⟨0, 0⟩, ⟨2, 0⟩, true⟩ (by decide) (by decide)

/-! ### C2: vertical ordering of the placement loop -/

/-- Occupied slots in list order are disjoint and top-down ordered. -/
def slot_chain (l : List (Int × Int)) : Prop :=
  List.Chain' (fun a b => a.2 ≤ b.1) l

def slot_heights (h : Int) (l : List (Int × Int)) : Prop :=
  ∀ se ∈ l, se.1 + h ≤ se.2

/-- Each slot starts at or above the largest candidate seen so far, or
exactly two pixels below its predecessor (a nudged placement). -/
def slot_starts_rel (cmax : Int) (a b : Int × Int) : Prop :=
  b.1 ≤ cmax ∨ b.1 = a.2 + 2

def slot_starts (cmax : Int) (l : List (Int × Int)) : Prop :=
  (∀ se ∈ l.head?, se.1 ≤ cmax) ∧ List.Chain' (slot_starts_rel cmax) l

lemma slot_starts_mono {cmax c : Int} (h : cmax ≤ c) {l : List (Int × Int)} :
    slot_starts cmax l → slot_starts c l := by
  rintro ⟨hh, hc⟩
  refine ⟨fun se hse => le_trans (hh se hse) h, hc.imp ?_⟩
  intro a b hab
  rcases hab with hab | hab
  · exact Or.inl (le_trans hab h)
  · exact Or.inr hab

lemma nudge_step_ge (bh c : Int) (se : Int × Int) : c ≤ nudge_step bh c se := by
  unfold nudge_step
  split <;> omega

lemma nudge_ge (bh : Int) :
    ∀ (slots : List (Int × Int)) (c : Int), c ≤ nudge_fold bh slots c := by
  intro slots
  induction slots with
  | nil => intro c; exact le_refl c
  | cons se rest ih =>
    intro c
    unfold nudge_fold at ih ⊢
    rw [List.foldl_cons]
    exact le_trans (nudge_step_ge bh c se) (ih _)

lemma nudge_result (bh : Int) :
    ∀ (slots : List (Int × Int)) (c : Int),
      nudge_fold bh slots c = c ∨ ∃ se ∈ slots, nudge_fold bh slots c = se.2 + 2 := by
  intro slots
  induction slots with
  | nil => intro c; exact Or.inl rfl
  | cons se rest ih =>
    intro c
    unfold nudge_fold at ih ⊢
    rw [List.foldl_cons]
    rcases ih (nudge_step bh c se) with h | ⟨se', hse', h⟩
    · rw [h]
      unfold nudge_step
      split
      · exact Or.inr ⟨se, List.mem_cons_self _ _, rfl⟩
      · exact Or.inl rfl
    · exact Or.inr ⟨se', List.mem_cons_of_mem _ hse', h⟩

lemma nudge_fold_append (bh c : Int) (init : List (Int × Int)) (last : Int × Int) :
    nudge_fold bh (init ++ [last]) c = nudge_step bh (nudge_fold bh init c) last := by
  unfold nudge_fold
  rw [List.foldl_append]
  rfl

lemma slot_starts_append_left {cmax : Int} {init : List (Int × Int)} {x : Int × Int}
    (h : slot_starts cmax (init ++ [x])) : slot_starts cmax init := by
  refine ⟨?_, ?_⟩
  · intro se hse
    apply h.1
    rw [List.head?_append]
    cases hh : init.head? with
    | none => rw [hh] at hse; exact absurd hse (by simp)
    | some a =>
      rw [hh] at hse
      have hsa : a = se := by simpa using hse
      subst hsa
      simp
  · have := h.2
    rw [List.chain'_append] at this
    exact this.1

lemma nudge_ge_last (bh cmax c : Int) (hbh : 3 ≤ bh) (hc : cmax ≤ c) :
    ∀ (slots : List (Int × Int)), slot_starts cmax slots →
      ∀ lb ∈ slots.getLast?, lb.2 ≤ nudge_fold bh slots c := by
  intro slots
  induction slots using List.reverseRecOn with
  | nil => intro _ lb hlb; simp at hlb
  | append_singleton init last ih =>
    intro hstarts lb hlb
    rw [List.getLast?_concat] at hlb
    have hlbl : last = lb := by simpa using hlb
    subst hlbl
    have hlink := hstarts.2
    rw [List.chain'_append] at hlink
    rw [nudge_fold_append]
    have hcur := nudge_ge bh init c
    have hgate : last.1 < nudge_fold bh init c + bh := by
      rcases List.eq_nil_or_concat init with hnil | ⟨init', prev, hcc⟩
      rotate_left
      · rw [List.concat_eq_append] at hcc
        subst hcc
        have hprev : prev.2 ≤ nudge_fold bh (init' ++ [prev]) c := by
          refine ih (slot_starts_append_left hstarts) prev ?_
          rw [List.getLast?_concat]
          rfl
        have hrel : slot_starts_rel cmax prev last := by
          refine hlink.2.2 prev ?_ last ?_
          · rw [List.getLast?_concat]; rfl
          · rfl
        rcases hrel with hrel | hrel <;> omega
      · subst hnil
        have hhead : last.1 ≤ cmax := by
          apply hstarts.1
          simp
        unfold nudge_fold at hcur ⊢
        simp only [List.foldl_nil] at hcur ⊢
        omega
    unfold nudge_step
    split <;> omega

lemma chain_ends_le (minBar : Int) (h3 : 3 ≤ minBar) :
    ∀ (slots : List (Int × Int)), slot_chain slots → slot_heights minBar slots →
      ∀ lb ∈ slots.getLast?, ∀ se ∈ slots, se = lb ∨ se.2 + 3 ≤ lb.2 := by
  intro slots
  induction slots using List.reverseRecOn with
  | nil => intro _ _ lb hlb; simp at hlb
  | append_singleton init last ih =>
    intro hchain hheights lb hlb se hse
    rw [List.getLast?_concat] at hlb
    have hlbl : last = lb := by simpa using hlb
    subst hlbl
    rcases List.mem_append.1 hse with hse | hse
    · rcases List.eq_nil_or_concat init with hnil | ⟨init', prev, hcc⟩
      · subst hnil; simp at hse
      · rw [List.concat_eq_append] at hcc
        subst hcc
        have hchain' := hchain
        rw [slot_chain, List.chain'_append] at hchain'
        have hprev := ih hchain'.1
          (fun q hq => hheights q (List.mem_append_left _ hq)) prev
          (by rw [List.getLast?_concat]; rfl) se hse
        have hrel : prev.2 ≤ last.1 := by
          refine hchain'.2.2 prev ?_ last ?_
          · rw [List.getLast?_concat]; rfl
          · rfl
        have hht : last.1 + minBar ≤ last.2 :=
          hheights last (List.mem_append_right _ (by simp))
        rcases hprev with hprev | hprev
        · subst hprev; right; omega
        · right; omega
    · have : se = last := by simpa using hse
      exact Or.inl this

lemma push_block_inv (minBar y height c bh : Int) (e : CalendarEvent)
    (placed : List Placed) (cmax : Int)
    (h3 : 3 ≤ minBar) (hbh : minBar ≤ bh) (hc : cmax ≤ c)
    (hchain : slot_chain (slots_of placed))
    (hheights : slot_heights minBar (slots_of placed))
    (hstarts : slot_starts cmax (slots_of placed)) :
    slot_chain (slots_of (push_block minBar y height placed c bh e)) ∧
    slot_heights minBar (slots_of (push_block minBar y height placed c bh e)) ∧
    slot_starts c (slots_of (push_block minBar y height placed c bh e)) := by
  rcases push_block_spec minBar y height c bh placed e with hcase | ⟨ht, hcase, hhts, hbound⟩
  · rw [hcase]
    exact ⟨hchain, hheights, slot_starts_mono hc hstarts⟩
  · rw [hcase]
    have hslots : slots_of (placed ++ [⟨nudge_fold bh (slots_of placed) c, ht, e⟩])
        = slots_of placed
          ++ [(nudge_fold bh (slots_of placed) c,
                nudge_fold bh (slots_of placed) c + ht)] := by
      simp [slots_of]
    rw [hslots]
    set f := nudge_fold bh (slots_of placed) c with hf
    have hminht : minBar ≤ ht := by
      rcases hhts with h | ⟨h1, _, _⟩
      · omega
      · exact h1
    have hlastle : ∀ lb ∈ (slots_of placed).getLast?, lb.2 ≤ f :=
      fun lb hlb => nudge_ge_last bh cmax c (by omega) hc (slots_of placed) hstarts lb hlb
    refine ⟨?_, ?_, ?_, ?_⟩
    · rw [slot_chain, List.chain'_append]
      refine ⟨hchain, List.chain'_singleton _, ?_⟩
      intro x hx yy hyy
      have hyeq : (f, f + ht) = yy := by simpa using hyy
      rw [← hyeq]
      exact hlastle x hx
    · intro se hse
      rcases List.mem_append.1 hse with h | h
      · exact hheights se h
      · have hseq : se = (f, f + ht) := by simpa using h
        rw [hseq]
        dsimp only
        omega
    · intro se hse
      cases hps : slots_of placed with
      | nil =>
        rw [hps] at hse
        have hseq : (f, f + ht) = se := by simpa using hse
        rw [← hseq]
        dsimp only
        rw [hf, hps]
        exact nudge_ge bh [] c
      | cons a as =>
        rw [hps] at hse
        have hseq : a = se := by
          rw [List.cons_append] at hse
          simpa using hse
        rw [← hseq]
        have := hstarts.1
        rw [hps] at this
        exact le_trans (this a rfl) hc
    · rw [List.chain'_append]
      refine ⟨(slot_starts_mono hc hstarts).2, List.chain'_singleton _, ?_⟩
      intro lb hlb yy hyy
      have hyeq : (f, f + ht) = yy := by simpa using hyy
      rw [← hyeq]
      rcases nudge_result bh (slots_of placed) c with hr | ⟨se, hsem, hr⟩
      · left
        dsimp only
        rw [hf, hr]
      · rcases chain_ends_le minBar h3 (slots_of placed) hchain hheights lb hlb se hsem
          with heq | hlt
        · right
          dsimp only
          rw [hf, hr, heq]
        · exfalso
          have hle := hlastle lb hlb
          rw [hf] at hle
          omega

lemma timed_top_ge (y height : Int) (hh : 0 ≤ height) (e : CalendarEvent) :
    y ≤ timed_top y height e := by
  unfold timed_top pyInt
  dsimp only
  have h1 : (0 : Int) ≤ min (max e.start.minuteOfDay 360) 1320 - 360 := by
    have := le_min (le_max_right e.start.minuteOfDay 360)
      (by norm_num : (360 : Int) ≤ 1320)
    omega
  have := Int.tdiv_nonneg (mul_nonneg h1 hh) (by norm_num : (0 : Int) ≤ 960)
  omega

lemma timed_top_mono (y height : Int) (hh : 0 ≤ height) {a b : CalendarEvent}
    (hab : a.start.minuteOfDay ≤ b.start.minuteOfDay) :
    timed_top y height a ≤ timed_top y height b := by
  unfold timed_top pyInt
  dsimp only
  set ca := min (max a.start.minuteOfDay 360) 1320 with hca
  set cb := min (max b.start.minuteOfDay 360) 1320 with hcb
  have hma : (360 : Int) ≤ ca :=
    le_min (le_max_right _ _) (by norm_num)
  have hmb : (360 : Int) ≤ cb :=
    le_min (le_max_right _ _) (by norm_num)
  have hmono : ca ≤ cb := min_le_min (max_le_max hab (le_refl 360)) (le_refl 1320)
  have h1 : (0 : Int) ≤ ca - 360 := by omega
  have h2 : (0 : Int) ≤ cb - 360 := by omega
  have hnum : (ca - 360) * height ≤ (cb - 360) * height :=
    mul_le_mul_of_nonneg_right (by omega) hh
  rw [Int.tdiv_eq_ediv (mul_nonneg h1 hh) (by norm_num),
    Int.tdiv_eq_ediv (mul_nonneg h2 hh) (by norm_num)]
  have := Int.ediv_le_ediv (by norm_num : (0 : Int) < 960) hnum
  omega

lemma place_loop_chain (wrap : CalendarEvent → Int → Nat) (lh minBar y height : Int)
    (h3 : 3 ≤ minBar) :
    ∀ (events : List CalendarEvent) (placed : List Placed) (cmax : Int),
      (∀ e ∈ events, e.all_day = false) →
      (∀ e ∈ events, cmax ≤ timed_top y height e) →
      List.Pairwise (fun a b => timed_top y height a ≤ timed_top y height b) events →
      slot_chain (slots_of placed) →
      slot_heights minBar (slots_of placed) →
      slot_starts cmax (slots_of placed) →
      slot_chain (slots_of (events.foldl (place_one wrap lh minBar y height) placed)) := by
  intro events
  induction events with
  | nil => intro placed cmax _ _ _ hchain _ _; exact hchain
  | cons e rest ih =>
    intro placed cmax hday hcand hpw hchain hheights hstarts
    rw [List.foldl_cons]
    have hd : e.all_day = false := hday e (List.mem_cons_self _ _)
    have hstep : place_one wrap lh minBar y height placed e
        = push_block minBar y height placed (timed_top y height e)
            (timed_bar_height minBar height e) e := by
      unfold place_one
      rw [hd]
      simp
    rw [hstep]
    obtain ⟨hch', hhe', hst'⟩ := push_block_inv minBar y height (timed_top y height e)
      (timed_bar_height minBar height e) e placed cmax h3 (le_max_right _ _)
      (hcand e (List.mem_cons_self _ _)) hchain hheights hstarts
    exact ih _ (timed_top y height e) (fun x hx => hday x (List.mem_cons_of_mem _ hx))
      (fun x hx => (List.pairwise_cons.1 hpw).1 x hx) ((List.pairwise_cons.1 hpw).2)
      hch' hhe' hst'

/-- C2 counterexample: a timed event that starts the previous evening
(20:00, ending 01:00 the next day) is grouped into the next day's cell by
group_events_by_day and precedes a morning event in ascending start-time
order; the cell places the late block low (top 350) and the morning block
high (top 50), so adjacent placed blocks violate
top_i + height_i <= top_{i+1}. -/
theorem day_place_adjacent_cex :
    List.Pairwise
        (fun a b : CalendarEvent =>
          a.start.day < b.start.day ∨
            (a.start.day = b.start.day ∧ a.start.minuteOfDay ≤ b.start.minuteOfDay))
        [⟨"c", "late", ⟨0, 1200⟩, ⟨1, 60⟩, false⟩, ⟨"c", "morn", ⟨1, 480⟩, ⟨1, 540⟩, false⟩] ∧
    ¬ blocks_chain (draw_events_in_cell (fun _ _ => 1) none 0 400
        [⟨"c", "late", ⟨0, 1200⟩, ⟨1, 60⟩, false⟩,
         ⟨"c", "morn", ⟨1, 480⟩, ⟨1, 540⟩, false⟩] []) := by
  constructor
  · decide
  · intro hch
    have houteq : draw_events_in_cell (fun _ _ => 1) none 0 400
        [⟨"c", "late", ⟨0, 1200⟩, ⟨1, 60⟩, false⟩,
         ⟨"c", "morn", ⟨1, 480⟩, ⟨1, 540⟩, false⟩] []
        = [⟨350, 50, ⟨"c", "late", ⟨0, 1200⟩, ⟨1, 60⟩, false⟩⟩,
           ⟨50, 36, ⟨"c", "morn", ⟨1, 480⟩, ⟨1, 540⟩, false⟩⟩] := by decide
    unfold blocks_chain at hch
    rw [houteq, List.chain'_cons] at hch
    have hbad := hch.1
    dsimp only at hbad
    omega

/-- C2 (amended): the non-overlap chain holds for the lists the claim
intends but with a restricted hypothesis: when every event is timed and
the list is ordered by ascending start time of day (as for a single day's
own events), every pair of adjacent placed blocks in placement order
satisfies top_i + height_i <= top_{i+1}.  An event whose start lies on an
earlier day breaks the guarantee (see the counterexample). -/
theorem day_place_chain_of_sorted (wrap : CalendarEvent → Int → Nat)
    (lh minBar y height : Int) (events : List CalendarEvent)
    (h3 : 3 ≤ minBar) (hh : 0 ≤ height)
    (ht : ∀ e ∈ events, e.all_day = false)
    (hs : List.Pairwise (fun a b : CalendarEvent =>
        a.start.minuteOfDay ≤ b.start.minuteOfDay) events) :
    blocks_chain (day_place_core wrap lh minBar y height events) := by
  have hpw : List.Pairwise
      (fun a b => timed_top y height a ≤ timed_top y height b) events :=
    hs.imp (fun hab => timed_top_mono y height hh hab)
  have hchain := place_loop_chain wrap lh minBar y height h3 events [] y ht
    (fun e _ => timed_top_ge y height hh e) hpw
    (by simp [slots_of, slot_chain])
    (by simp [slots_of, slot_heights])
    (by constructor <;> simp [slots_of])
  unfold day_place_core blocks_chain
  rw [slot_chain, slots_of, List.chain'_map] at hchain
  exact hchain

theorem day_place_chain_of_sorted_witness :
    blocks_chain (day_place_core (fun _ _ => 1) 16 28 0 400
      [⟨"c", "e1", ⟨1, 540⟩, ⟨1, 600⟩, false⟩, ⟨"c", "e2", ⟨1, 600⟩, ⟨1, 660⟩, false⟩,
       ⟨"c", "e3", ⟨1, 840⟩, ⟨1, 960⟩, false⟩]) :=
  day_place_chain_of_sorted (fun _ _ => 1) 16 28 0 400
    [⟨"c", "e1", ⟨1, 540⟩, ⟨1, 600⟩, false⟩, ⟨"c", "e2", ⟨1, 600⟩, ⟨1, 660⟩, false⟩,
     ⟨"c", "e3", ⟨1, 840⟩, ⟨1, 960⟩, false⟩]
    (by decide) (by decide) (by decide) (by decide)
